import Mathlib

/-!
Verification of the media-downloader core (`CyberSapiens.py`) against its
natural-language specification.

Python strings are modeled as lists of characters (`PyStr`).  The pieces of
`urllib.parse` the program uses (`urlparse`, `parse_qs`) are embedded below,
restricted to the behavior exercised by ASCII inputs:

* `urlsplit` is modeled with CPython's input sanitization (the leading
  WHATWG C0-control/space strip and the removal of every tab, carriage
  return and line feed, bpo-43882) followed by the scheme, netloc, fragment
  and query splitting; its only modeled failure is the
  balanced-square-bracket check on the authority (`Invalid IPv6 URL`).
  The additional CPython rejections for non-ASCII authorities are outside
  the model, so theorems quantifying over arbitrary URLs carry an ASCII
  hypothesis.
* `unquote` is modeled bytewise: a `%XX` escape decodes to the character
  with code `0xXX`.  This matches CPython for ASCII escapes; theorems that
  go through query parsing restrict identifiers to an escape-free alphabet.
* Python `str.lower` is modeled on ASCII letters.

Numeric progress values are modeled in `ℚ` (the source computes IEEE-754
doubles; all claim-relevant values are exact in both).  `yt_dlp` progress
callbacks are modeled as the dictionaries the source reads (`status`,
`downloaded_bytes`, optional `total_bytes`), and the HTTP layer of
`download_image` as a `Content-Length` header plus a byte list.
-/

abbrev PyStr := List Char

instance {ε α : Type _} [DecidableEq ε] [DecidableEq α] : DecidableEq (Except ε α) := fun
  | .error e, .error f =>
    if h : e = f then .isTrue (by rw [h])
    else .isFalse (by intro hh; cases hh; exact h rfl)
  | .error _, .ok _ => .isFalse (by intro h; cases h)
  | .ok _, .error _ => .isFalse (by intro h; cases h)
  | .ok a, .ok b =>
    if h : a = b then .isTrue (by rw [h])
    else .isFalse (by intro hh; cases hh; exact h rfl)

/-- Python's substring test `needle in hay`. -/
def pyContains (needle : PyStr) : PyStr → Bool
  | [] => needle.isEmpty
  | c :: rest => needle.isPrefixOf (c :: rest) || pyContains needle rest

/-- Python's `s.split(sep)` for a one-character separator (maximal split). -/
def pySplitChar (sep : Char) : PyStr → List PyStr
  | [] => [[]]
  | c :: rest =>
    if c = sep then [] :: pySplitChar sep rest
    else
      match pySplitChar sep rest with
      | [] => [[c]]
      | r :: rs => (c :: r) :: rs

/-- Python's `s.split(sep, 1)`: the part before the first separator, and the
remainder when the separator occurs. -/
def pySplitOnce (sep : Char) : PyStr → PyStr × Option PyStr
  | [] => ([], none)
  | c :: rest =>
    if c = sep then ([], some rest)
    else
      let r := pySplitOnce sep rest
      (c :: r.1, r.2)

/-- Python `lst[-1]` for the (always nonempty) results of `split`. -/
def pyLast (l : List PyStr) : PyStr := l.getLastD []

/-- Python `str.lower` on an ASCII letter. -/
def pyLowerChar (c : Char) : Char :=
  if 'A' ≤ c ∧ c ≤ 'Z' then Char.ofNat (c.toNat + 32) else c

/-- Python `str.lower`, modeled for ASCII strings. -/
def pyLower (s : PyStr) : PyStr := s.map pyLowerChar

/-- Python `c.isascii() and c.isalpha()`. -/
def isAsciiAlpha (c : Char) : Bool :=
  ('a' ≤ c && c ≤ 'z') || ('A' ≤ c && c ≤ 'Z')

/-- Python `s.find(c)` restricted to one-character needles (`none` for -1). -/
def findCharIdx (sep : Char) : PyStr → Option Nat
  | [] => none
  | c :: rest =>
    if c = sep then some 0 else (findCharIdx sep rest).map (· + 1)

/-- Python `s.rfind(c)` (`none` for -1). -/
def rfindCharIdx (sep : Char) (s : PyStr) : Option Nat :=
  (findCharIdx sep s.reverse).map (fun k => s.length - 1 - k)

/-- Python `s.find(c, start)` (`none` for -1). -/
def findCharIdxFrom (sep : Char) (s : PyStr) (start : Nat) : Option Nat :=
  (findCharIdx sep (s.drop start)).map (· + start)

/-- The characters CPython allows in a URL scheme. -/
def scheme_chars : PyStr :=
  "abcdefghijklmnopqrstuvwxyzABCDEFGHIJKLMNOPQRSTUVWXYZ0123456789+-.".toList

/-- The sanitization CPython's `urlsplit` applies before parsing: strip
leading WHATWG C0-control/space characters (codes 0x00 to 0x20), then remove
every tab, carriage return and line feed from the whole URL. -/
def sanitizeUrl (url : PyStr) : PyStr :=
  (url.dropWhile (fun c => c.toNat ≤ 0x20)).filter
    (fun c => !(c == '\t' || c == '\r' || c == '\n'))

/-- Scheme-detection step of `urllib.parse.urlsplit`: when the text before the
first colon is a well-formed scheme, return it lowercased together with the
remainder, otherwise leave the URL untouched. -/
def schemeSplit (url : PyStr) : PyStr × PyStr :=
  match findCharIdx ':' url with
  | some i =>
    if 0 < i ∧ isAsciiAlpha (url.headD ' ') = true
        ∧ (url.take i).all (fun c => scheme_chars.contains c) then
      (pyLower (url.take i), url.drop (i + 1))
    else ([], url)
  | none => ([], url)

/-- A character that ends the netloc in `urlsplit`. -/
def netlocEnd (c : Char) : Bool := c == '/' || c == '?' || c == '#'

/-- Netloc-extraction step of `urlsplit`: when the remainder starts with `//`,
split off everything up to the first of `/?#`. -/
def netlocSplit (rest : PyStr) : PyStr × PyStr :=
  if rest.take 2 = ['/', '/'] then
    ((rest.drop 2).takeWhile (fun c => !netlocEnd c),
     (rest.drop 2).dropWhile (fun c => !netlocEnd c))
  else ([], rest)

/-- The netloc `urlsplit` would extract from the sanitized URL (used to state
bracket hypotheses). -/
def rawNetloc (url : PyStr) : PyStr :=
  (netlocSplit (schemeSplit (sanitizeUrl url)).2).1

structure SplitResult where
  scheme : PyStr
  netloc : PyStr
  path : PyStr
  query : PyStr
  fragment : PyStr
deriving DecidableEq

/-- `urllib.parse.urlsplit`: the input sanitization, then scheme, netloc,
path, query and fragment.  The `ValueError` CPython raises on an authority
with unbalanced square brackets is modeled as `Except.error`. -/
def urlsplit (url : PyStr) : Except PyStr SplitResult :=
  let u := sanitizeUrl url
  let s := schemeSplit u
  let n := netlocSplit s.2
  if ('[' ∈ n.1 ∧ ']' ∉ n.1) ∨ (']' ∈ n.1 ∧ '[' ∉ n.1) then
    .error ("Invalid IPv6 URL".toList)
  else
    let f := pySplitOnce '#' n.2
    let q := pySplitOnce '?' f.1
    .ok ⟨s.1, n.1, q.1, q.2.getD [], f.2.getD []⟩

/-- The parameter-stripping `urlparse` applies to the path (`;` in the last
segment starts the params component, which `.path` excludes). -/
def splitparamsPath (p : PyStr) : PyStr :=
  if ';' ∈ p then
    if '/' ∈ p then
      match rfindCharIdx '/' p with
      | some j =>
        match findCharIdxFrom ';' p j with
        | some i => p.take i
        | none => p
      | none => p
    else
      match findCharIdx ';' p with
      | some i => p.take i
      | none => p
  else p

/-- Hexadecimal digit test used by percent-decoding. -/
def isHexDigit (c : Char) : Bool :=
  ('0' ≤ c && c ≤ '9') || ('a' ≤ c && c ≤ 'f') || ('A' ≤ c && c ≤ 'F')

/-- Value of a hexadecimal digit. -/
def hexVal (c : Char) : Nat :=
  if '0' ≤ c && c ≤ '9' then c.toNat - 48
  else if 'a' ≤ c && c ≤ 'f' then c.toNat - 87
  else c.toNat - 55

/-- Worker for percent-decoding; the fuel argument (instantiated with the
length of the input, which bounds the number of steps) only makes the
recursion structural. -/
def percentDecodeGo : Nat → PyStr → PyStr
  | 0, l => l
  | _ + 1, [] => []
  | fuel + 1, c :: rest =>
    if c = '%' then
      match rest with
      | a :: b :: rest2 =>
        if isHexDigit a && isHexDigit b then
          Char.ofNat (16 * hexVal a + hexVal b) :: percentDecodeGo fuel rest2
        else c :: percentDecodeGo fuel rest
      | _ => c :: percentDecodeGo fuel rest
    else c :: percentDecodeGo fuel rest

/-- Percent-decoding of `urllib.parse.unquote`, modeled bytewise: a valid
`%XX` escape becomes the character with code `0xXX`, an invalid escape is left
verbatim. -/
def percentDecode (s : PyStr) : PyStr := percentDecodeGo s.length s

/-- `urllib.parse.unquote_plus`: `+` becomes a space, then percent-decoding. -/
def unquote_plus (s : PyStr) : PyStr :=
  percentDecode (s.map fun c => if c = '+' then ' ' else c)

/-- One field of `urllib.parse.parse_qsl` with default options: an empty
field, a field without `=`, and a field with an empty value are dropped;
otherwise the name and value are unquoted. -/
def qsl_field (nv : PyStr) : Option (PyStr × PyStr) :=
  if nv = [] then none
  else
    match pySplitOnce '=' nv with
    | (_, none) => none
    | (n, some v) =>
      if v = [] then none else some (unquote_plus n, unquote_plus v)

/-- `urllib.parse.parse_qsl` with default options: split the query on `&` and
parse each field. -/
def parse_qsl (qs : PyStr) : List (PyStr × PyStr) :=
  (pySplitChar '&' qs).filterMap qsl_field

/-- `parse_qs(qs).get(key, [None])[0]`: the first value bound to `key`. -/
def parse_qs_get (key : PyStr) (qs : PyStr) : Option PyStr :=
  ((parse_qsl qs).find? fun p => p.1 == key).map (fun p => p.2)

/-- `get_youtube_id` from the source: the `youtu.be` branch takes the text
after the last `/`; the `youtube.com` branch reads the `v` query parameter;
otherwise `None`.  The second branch parses the URL and therefore inherits
`urlsplit`'s error. -/
def get_youtube_id (url : PyStr) : Except PyStr (Option PyStr) :=
  if pyContains ("youtu.be".toList) url then
    .ok (some (pyLast (pySplitChar '/' url)))
  else if pyContains ("youtube.com".toList) url then
    (urlsplit url).map fun r => parse_qs_get ("v".toList) r.query
  else .ok none

/-- The video-platform domain allowlist of `is_video_url`. -/
def video_domains : List PyStr :=
  ["youtube.com", "youtu.be", "vimeo.com", "dailymotion.com"].map String.toList

/-- `is_video_url` from the source: some allowlisted domain occurs as a
substring of the parsed URL's netloc. -/
def is_video_url (url : PyStr) : Except PyStr Bool :=
  (urlsplit url).map fun r => video_domains.any fun d => pyContains d r.netloc

/-- The image-extension allowlist of `is_image_url`. -/
def image_extensions : List PyStr :=
  [".jpg", ".jpeg", ".png", ".gif", ".bmp", ".webp"].map String.toList

/-- `is_image_url` from the source: the lowercased parsed path ends with an
allowlisted extension. -/
def is_image_url (url : PyStr) : Except PyStr Bool :=
  (urlsplit url).map fun r =>
    image_extensions.any fun ext => ext.isSuffixOf (pyLower (splitparamsPath r.path))

inductive MediaKind
  | video
  | image
  | unsupported
deriving DecidableEq

/-- The classification `main` performs: `is_video_url`, else `is_image_url`,
else unsupported. -/
def classify (url : PyStr) : Except PyStr MediaKind := do
  if (← is_video_url url) then pure .video
  else if (← is_image_url url) then pure .image
  else pure .unsupported

/-- Modelled from the claim's wording for C10: the portion of a string after
its final `/` character (the whole string when there is no slash). -/
def afterLastSlash (s : PyStr) : PyStr :=
  (s.reverse.takeWhile (fun c => c ≠ '/')).reverse

/-- The untyped dictionary `yt_dlp.extract_info` returns, restricted to the
keys `get_video_info` reads.  The outer `Option` is key presence, the inner
one distinguishes `None` from a proper value. -/
structure InfoDict where
  title : Option (Option PyStr)
  thumbnail : Option (Option PyStr)
  duration : Option (Option ℤ)
  description : Option (Option PyStr)
  uploader : Option (Option PyStr)
  view_count : Option (Option ℤ)
deriving DecidableEq

/-- The metadata dictionary `get_video_info` builds (`none` is Python
`None`). -/
structure VideoMeta where
  title : Option PyStr
  thumbnail : Option PyStr
  duration : Option ℤ
  description : Option PyStr
  uploader : Option PyStr
  view_count : Option ℤ
deriving DecidableEq

/-- The dictionary construction in `get_video_info`: each field is
`info.get(key, default)` — the default is used only when the key is absent. -/
def build_video_meta (info : InfoDict) : VideoMeta :=
  ⟨info.title.getD (some ("Unknown Title".toList)),
   info.thumbnail.getD none,
   info.duration.getD none,
   info.description.getD (some ("No description available".toList)),
   info.uploader.getD (some ("Unknown uploader".toList)),
   info.view_count.getD (some 0)⟩

/-- `get_video_info`: on backend success build the metadata dictionary; on any
backend exception show one error message and return `None`.  The result pairs
the returned value with the list of error messages displayed. -/
def get_video_info (backend : Except PyStr InfoDict) : Option VideoMeta × List PyStr :=
  match backend with
  | .ok info => (some (build_video_meta info), [])
  | .error e => (none, [("Error fetching video info: ".toList) ++ e])

/-- Python `str(n)` for a natural number. -/
def natStr (n : Nat) : PyStr := (Nat.repr n).toList

/-- Rounding to the nearest integer, ties to even — the rounding CPython's
fixed-point formatting applies to the (here exact) scaled value. -/
def roundHalfEven (q : ℚ) : ℤ :=
  if q - Int.floor q < 1/2 then Int.floor q
  else if 1/2 < q - Int.floor q then Int.floor q + 1
  else if Int.floor q % 2 = 0 then Int.floor q else Int.floor q + 1

/-- Python `f"{q:.1f}"` for a nonnegative value, modeled over `ℚ`: the source
formats an IEEE-754 double; the two agree whenever the scaled value is not a
tie perturbed by binary rounding, in particular on every input the claims
mention. -/
def fmtOneDecimal (q : ℚ) : PyStr :=
  natStr ((roundHalfEven (q * 10)).toNat / 10) ++
    ('.' :: natStr ((roundHalfEven (q * 10)).toNat % 10))

/-- `format_views` from the source (`none` is Python `None`). -/
def format_views (view_count : Option Nat) : PyStr :=
  match view_count with
  | none => "No views".toList
  | some n =>
    if n = 0 then "No views".toList
    else if n < 1000 then natStr n
    else if n < 1000000 then fmtOneDecimal ((n : ℚ) / 1000) ++ ['K']
    else if n < 1000000000 then fmtOneDecimal ((n : ℚ) / 1000000) ++ ['M']
    else fmtOneDecimal ((n : ℚ) / 1000000000) ++ ['B']

/-- A `yt_dlp` progress-callback dictionary, restricted to the keys the
source's hook reads: `status`, `downloaded_bytes`, and the optional
`total_bytes`. -/
structure HookDict where
  status : PyStr
  downloaded_bytes : ℚ
  total_bytes : Option ℚ
deriving DecidableEq

/-- The progress hook installed by `download_video` as a state transformer on
`st.session_state.progress`: on a `downloading` callback the progress becomes
`downloaded_bytes / total_bytes` when `total_bytes` is present and `0`
otherwise; any other callback leaves the state alone. -/
def progress_hook (d : HookDict) (progress : ℚ) : ℚ :=
  if d.status = ("downloading".toList) then
    match d.total_bytes with
    | some t => d.downloaded_bytes / t
    | none => 0
  else progress

/-- The progress values observable over a video download: the initial `0` set
by `download_video`, then the state after each backend callback. -/
def video_progress_trace (ds : List HookDict) : List ℚ :=
  ds.scanl (fun p d => progress_hook d p) 0

/-- Chunking of `response.iter_content(1024)`; the fuel argument (instantiated
with the length of the body, which bounds the number of chunks) only makes the
recursion structural. -/
def chunksGo : Nat → List Nat → List (List Nat)
  | 0, _ => []
  | _ + 1, [] => []
  | fuel + 1, c => c.take 1024 :: chunksGo fuel (c.drop 1024)

/-- The 1024-byte chunks `download_image` iterates over. -/
def iter_content (content : List Nat) : List (List Nat) := chunksGo content.length content

/-- `int(response.headers.get('content-length', 0))`. -/
def content_length (header : Option Nat) : Nat := header.getD 0

/-- One iteration of `download_image`'s chunk loop: add the chunk length to
the byte counter, record the `f.write(data)` call, and assign
`downloaded / total_size` to the progress. -/
def image_step (total_size : Nat) (acc : Nat × List (List Nat) × List ℚ)
    (data : List Nat) : Nat × List (List Nat) × List ℚ :=
  (acc.1 + data.length, acc.2.1 ++ [data],
   acc.2.2 ++ [((acc.1 + data.length : Nat) : ℚ) / (total_size : ℚ)])

/-- The observable effects of `download_image`'s write loop: the sequence of
`f.write` calls and the sequence of assignments to
`st.session_state.progress`.  With a zero/absent `Content-Length` the whole
body is written at once and progress is never assigned; otherwise each chunk
is written and progress becomes `downloaded / total_size`. -/
def download_image_writes (total_size : Nat) (content : List Nat) :
    List (List Nat) × List ℚ :=
  if total_size = 0 then ([content], [])
  else ((iter_content content).foldl (image_step total_size) (0, [], [])).2

/-- Modelled from the claim's wording for C6: the running byte totals after
each chunk. -/
def prefixTotals (chunks : List (List Nat)) : List Nat :=
  (chunks.scanl (fun a c => a + c.length) 0).tail

/-- The identifier alphabet the amended C5 quantifies over: ASCII
alphanumerics, `-` and `_` (a superset of the alphabet of real YouTube video
identifiers). -/
def safeIdChar (c : Char) : Bool := c.isAlphanum || c == '-' || c == '_'

lemma not_mem_of_safe {s : PyStr} (hsafe : ∀ c ∈ s, safeIdChar c = true) {x : Char}
    (hx : safeIdChar x = false) : x ∉ s := by
  intro hm
  rw [hsafe x hm] at hx
  cases hx

lemma pyContains_iff (p s : PyStr) : pyContains p s = true ↔ p <:+: s := by
  induction s with
  | nil => simp [pyContains, List.isEmpty_iff]
  | cons c rest ih =>
    simp [pyContains, List.infix_cons_iff, List.isPrefixOf_iff_prefix, ih]

lemma pySplitChar_ne_nil (sep : Char) : ∀ l : PyStr, pySplitChar sep l ≠ []
  | [] => by simp [pySplitChar]
  | c :: rest => by
    simp only [pySplitChar]
    split
    · simp
    · split <;> simp

lemma pySplitChar_of_not_mem {sep : Char} : ∀ {l : PyStr}, sep ∉ l → pySplitChar sep l = [l]
  | [], _ => rfl
  | c :: rest, h => by
    have hc : c ≠ sep := fun he => h (he ▸ List.mem_cons_self c rest)
    have hr : sep ∉ rest := fun hm => h (List.mem_cons_of_mem c hm)
    simp only [pySplitChar, if_neg hc, pySplitChar_of_not_mem hr]

lemma pySplitChar_cons_of_ne {sep c : Char} (hc : c ≠ sep) (l : PyStr) :
    pySplitChar sep (c :: l) =
      match pySplitChar sep l with
      | [] => [[c]]
      | r :: rs => (c :: r) :: rs := by
  simp [pySplitChar, hc]

lemma pySplitChar_length_ge_two {sep : Char} {l : PyStr} (h : sep ∈ l) :
    2 ≤ (pySplitChar sep l).length := by
  induction l with
  | nil => cases h
  | cons c rest ih =>
    by_cases hc : c = sep
    · subst hc
      have h1 : pySplitChar c (c :: rest) = [] :: pySplitChar c rest := by
        simp [pySplitChar]
      rw [h1]
      have h2 := pySplitChar_ne_nil c rest
      have h3 : 0 < (pySplitChar c rest).length := List.length_pos.mpr h2
      simp only [List.length_cons]
      omega
    · have hrest : sep ∈ rest := by
        rcases List.mem_cons.mp h with h1 | h1
        · exact absurd h1.symm hc
        · exact h1
      rw [pySplitChar_cons_of_ne hc]
      cases hS : pySplitChar sep rest with
      | nil => exact absurd hS (pySplitChar_ne_nil sep rest)
      | cons r rs =>
        have := ih hrest
        rw [hS] at this
        simpa using this

lemma pySplitChar_append {sep : Char} {l₁ : PyStr} (h : sep ∉ l₁) (l₂ : PyStr) :
    pySplitChar sep (l₁ ++ sep :: l₂) = l₁ :: pySplitChar sep l₂ := by
  induction l₁ with
  | nil => simp [pySplitChar]
  | cons c rest ih =>
    have hc : c ≠ sep := fun he => h (he ▸ List.mem_cons_self c rest)
    have hr : sep ∉ rest := fun hm => h (List.mem_cons_of_mem c hm)
    rw [List.cons_append, pySplitChar_cons_of_ne hc, ih hr]

lemma pySplitOnce_of_not_mem {sep : Char} {l : PyStr} (h : sep ∉ l) :
    pySplitOnce sep l = (l, none) := by
  induction l with
  | nil => rfl
  | cons c rest ih =>
    have hc : c ≠ sep := fun he => h (he ▸ List.mem_cons_self c rest)
    have hr : sep ∉ rest := fun hm => h (List.mem_cons_of_mem c hm)
    simp [pySplitOnce, hc, ih hr]

lemma pySplitOnce_append {sep : Char} {l₁ : PyStr} (h : sep ∉ l₁) (l₂ : PyStr) :
    pySplitOnce sep (l₁ ++ sep :: l₂) = (l₁, some l₂) := by
  induction l₁ with
  | nil => simp [pySplitOnce]
  | cons c rest ih =>
    have hc : c ≠ sep := fun he => h (he ▸ List.mem_cons_self c rest)
    have hr : sep ∉ rest := fun hm => h (List.mem_cons_of_mem c hm)
    simp [pySplitOnce, hc, ih hr]

lemma takeWhile_length_eq_iff {p : Char → Bool} {l : PyStr}
    (h : (l.takeWhile p).length = l.length) : l.takeWhile p = l :=
  (List.takeWhile_prefix p).eq_of_length h

lemma afterLastSlash_no_slash {l : PyStr} (h : '/' ∉ l) : afterLastSlash l = l := by
  unfold afterLastSlash
  rw [List.takeWhile_eq_self_iff.mpr, List.reverse_reverse]
  intro x hx
  have : x ∈ l := List.mem_reverse.mp hx
  simp only [decide_eq_true_eq]
  exact fun he => h (he ▸ this)

lemma afterLastSlash_append_cons (a b : PyStr) :
    afterLastSlash (a ++ '/' :: b) = afterLastSlash b := by
  unfold afterLastSlash
  rw [List.reverse_append]
  have hrev : ('/' :: b).reverse = b.reverse ++ ['/'] := by simp
  rw [hrev, List.append_assoc]
  rw [List.takeWhile_append]
  split
  · rename_i hlen
    have hself := takeWhile_length_eq_iff hlen
    have : (['/'] ++ a.reverse).takeWhile (fun c => decide (c ≠ '/')) = [] := by
      simp [List.takeWhile]
    rw [this, List.append_nil, hself]
  · rfl

lemma afterLastSlash_cons_of_mem {l : PyStr} (c : Char) (h : '/' ∈ l) :
    afterLastSlash (c :: l) = afterLastSlash l := by
  unfold afterLastSlash
  have hrev : (c :: l).reverse = l.reverse ++ [c] := by simp
  rw [hrev, List.takeWhile_append]
  split
  · rename_i hlen
    have hself := takeWhile_length_eq_iff hlen
    have hall := List.takeWhile_eq_self_iff.mp hself
    have := hall '/' (List.mem_reverse.mpr h)
    simp at this
  · rfl

lemma head_mem_of_pre {l : PyStr} {c : Char} {t : PyStr} (h : l <+: c :: t)
    (hne : l ≠ []) : c ∈ l := by
  cases l with
  | nil => exact absurd rfl hne
  | cons x l' =>
    obtain ⟨r, hr⟩ := h
    rw [List.cons_append] at hr
    injection hr with h1 _
    subst h1
    exact List.mem_cons_self x l'

lemma last_mem_of_suffix {l s : PyStr} {c : Char} {rest : PyStr}
    (hrev : s.reverse = c :: rest) (h : l <:+ s) (hne : l ≠ []) : c ∈ l := by
  have h2 : l.reverse <+: s.reverse := List.reverse_prefix.mpr h
  rw [hrev] at h2
  have h3 : l.reverse ≠ [] := by simpa using hne
  exact List.mem_reverse.mp (head_mem_of_pre h2 h3)

lemma prefix_append_cases {y a b : PyStr} (h : y <+: a ++ b) :
    y <+: a ∨ ∃ y2, y = a ++ y2 ∧ y2 <+: b := by
  have hy := List.prefix_iff_eq_take.mp h
  by_cases hlen : y.length ≤ a.length
  · left
    rw [List.take_append_of_le_length hlen] at hy
    exact hy ▸ List.take_prefix _ _
  · right
    push_neg at hlen
    refine ⟨b.take (y.length - a.length), ?_, List.take_prefix _ _⟩
    nth_rewrite 1 [hy]
    rw [List.take_append_eq_append_take, List.take_of_length_le (le_of_lt hlen)]

lemma infix_append_cases {y : PyStr} : ∀ {a b : PyStr}, y <:+: a ++ b →
    y <:+: a ∨ y <:+: b ∨
      ∃ y1 y2, y = y1 ++ y2 ∧ y1 ≠ [] ∧ y2 ≠ [] ∧ y1 <:+ a ∧ y2 <+: b := by
  intro a
  induction a with
  | nil =>
    intro b h
    exact Or.inr (Or.inl (by simpa using h))
  | cons c a' ih =>
    intro b h
    rw [List.cons_append] at h
    rcases List.infix_cons_iff.mp h with hp | hi
    · have hp2 : y <+: (c :: a') ++ b := by rwa [List.cons_append]
      rcases prefix_append_cases hp2 with h1 | ⟨y2, hy2, hpb⟩
      · exact Or.inl h1.isInfix
      · by_cases hy2nil : y2 = []
        · subst hy2nil
          rw [List.append_nil] at hy2
          exact Or.inl (hy2 ▸ List.infix_refl _)
        · exact Or.inr (Or.inr ⟨c :: a', y2, hy2, by simp, hy2nil, List.suffix_refl _, hpb⟩)
    · rcases ih hi with h1 | h1 | ⟨y1, y2, he, hn1, hn2, hs, hp⟩
      · exact Or.inl (List.infix_cons_iff.mpr (Or.inr h1))
      · exact Or.inr (Or.inl h1)
      · refine Or.inr (Or.inr ⟨y1, y2, he, hn1, hn2, ?_, hp⟩)
        obtain ⟨t, ht⟩ := hs
        exact ⟨c :: t, by rw [List.cons_append, ht]⟩

lemma pyContains_of_infix {p s : PyStr} (h : p <:+: s) : pyContains p s = true :=
  (pyContains_iff p s).mpr h

lemma pyContains_extend_right {p a : PyStr} (h : pyContains p a = true) (b : PyStr) :
    pyContains p (a ++ b) = true :=
  pyContains_of_infix (((pyContains_iff p a).mp h).trans (List.prefix_append a b).isInfix)

lemma percentDecodeGo_of_not_mem : ∀ (fuel : Nat) {l : PyStr}, '%' ∉ l →
    percentDecodeGo fuel l = l
  | 0, _, _ => rfl
  | _ + 1, [], _ => rfl
  | fuel + 1, c :: rest, h => by
    have hc : c ≠ '%' := fun he => h (he ▸ List.mem_cons_self c rest)
    have hr : '%' ∉ rest := fun hm => h (List.mem_cons_of_mem c hm)
    simp only [percentDecodeGo, if_neg hc, percentDecodeGo_of_not_mem fuel hr]

lemma map_plus_id {l : PyStr} (hp : '+' ∉ l) :
    (l.map fun c => if c = '+' then ' ' else c) = l := by
  induction l with
  | nil => rfl
  | cons c rest ih =>
    have hc : c ≠ '+' := fun he => hp (he ▸ List.mem_cons_self c rest)
    have hr : '+' ∉ rest := fun hm => hp (List.mem_cons_of_mem c hm)
    simp [hc, ih hr]

lemma unquote_plus_of_safe {l : PyStr} (hp : '+' ∉ l) (hpc : '%' ∉ l) :
    unquote_plus l = l := by
  unfold unquote_plus percentDecode
  rw [map_plus_id hp]
  exact percentDecodeGo_of_not_mem _ hpc

lemma noYoutuBe {v : PyStr} (hsafe : ∀ c ∈ v, safeIdChar c = true) :
    pyContains ("youtu.be".toList)
      ("https://www.youtube.com/watch?v=".toList ++ v ++ "&other=1".toList) = false := by
  rw [Bool.eq_false_iff]
  intro hinf
  rw [pyContains_iff, List.append_assoc] at hinf
  rcases infix_append_cases hinf with h1 | h1 | ⟨y1, y2, he, hn1, hn2, hs, hp⟩
  · have : pyContains ("youtu.be".toList) ("https://www.youtube.com/watch?v=".toList) = true :=
      pyContains_of_infix h1
    exact absurd this (by decide)
  · rcases infix_append_cases h1 with h2 | h2 | ⟨z1, z2, he2, hm1, hm2, hs2, hp2⟩
    · have hdot : ('.' : Char) ∈ ("youtu.be".toList) := by decide
      exact absurd (h2.subset hdot) (not_mem_of_safe hsafe (by decide))
    · have : pyContains ("youtu.be".toList) ("&other=1".toList) = true := pyContains_of_infix h2
      exact absurd this (by decide)
    · have h4 : ('&' : Char) ∈ z2 := by
        rw [show ("&other=1".toList) = '&' :: ("other=1".toList) from by decide] at hp2
        exact head_mem_of_pre hp2 hm2
      have : ('&' : Char) ∈ ("youtu.be".toList) := he2 ▸ List.mem_append.mpr (Or.inr h4)
      exact absurd this (by decide)
  · have h4 : ('=' : Char) ∈ y1 :=
      last_mem_of_suffix
        (show ("https://www.youtube.com/watch?v=".toList).reverse =
          '=' :: ("https://www.youtube.com/watch?v=".toList).reverse.tail from by decide)
        hs hn1
    have : ('=' : Char) ∈ ("youtu.be".toList) := he ▸ List.mem_append.mpr (Or.inl h4)
    exact absurd this (by decide)

lemma pyLast_split_eq_afterLastSlash : ∀ l : PyStr,
    pyLast (pySplitChar '/' l) = afterLastSlash l
  | [] => rfl
  | c :: l => by
    by_cases hc : c = '/'
    · subst hc
      rw [show pySplitChar '/' ('/' :: l) = [] :: pySplitChar '/' l from by simp [pySplitChar]]
      have h1 : pyLast ([] :: pySplitChar '/' l) = pyLast (pySplitChar '/' l) := by
        unfold pyLast
        cases hS : pySplitChar '/' l with
        | nil => exact absurd hS (pySplitChar_ne_nil '/' l)
        | cons r rs => simp [List.getLastD_cons]
      rw [h1, pyLast_split_eq_afterLastSlash l]
      have h2 : ('/' : Char) :: l = [] ++ '/' :: l := rfl
      rw [h2, afterLastSlash_append_cons]
    · rw [pySplitChar_cons_of_ne hc]
      by_cases hm : '/' ∈ l
      · have ih := pyLast_split_eq_afterLastSlash l
        cases hS : pySplitChar '/' l with
        | nil => exact absurd hS (pySplitChar_ne_nil '/' l)
        | cons r rs =>
          have hlen := pySplitChar_length_ge_two hm
          rw [hS] at hlen
          cases rs with
          | nil => simp at hlen
          | cons y ys =>
            rw [hS] at ih
            unfold pyLast at ih ⊢
            simp only [List.getLastD_cons] at ih ⊢
            rw [ih, afterLastSlash_cons_of_mem c hm]
      · rw [pySplitChar_of_not_mem hm]
        have hnm : '/' ∉ c :: l := by
          intro hx
          rcases List.mem_cons.mp hx with h1 | h1
          · exact hc h1.symm
          · exact hm h1
        rw [afterLastSlash_no_slash hnm]
        rfl


lemma findCharIdx_append_of_found {sep : Char} {a : PyStr} {i : Nat}
    (h : findCharIdx sep a = some i) (b : PyStr) : findCharIdx sep (a ++ b) = some i := by
  induction a generalizing i with
  | nil => cases h
  | cons c rest ih =>
    by_cases hc : c = sep
    · simp only [findCharIdx, if_pos hc] at h ⊢
      exact h
    · simp only [List.cons_append, findCharIdx, if_neg hc, Option.map_eq_some'] at h ⊢
      obtain ⟨j, hj, hji⟩ := h
      exact ⟨j, ih hj, hji⟩

lemma safe_gt_space {c : Char} (h : safeIdChar c = true) : 0x20 < c.toNat := by
  have hval : ∀ a : UInt32, a ≤ c.val → a.toNat ≤ c.toNat := by
    intro a ha
    rw [UInt32.le_def, BitVec.le_def] at ha
    exact ha
  simp only [safeIdChar, Char.isAlphanum, Char.isAlpha, Char.isDigit, Char.isUpper,
    Char.isLower, Bool.or_eq_true, Bool.and_eq_true, decide_eq_true_eq,
    beq_iff_eq] at h
  rcases h with ((((⟨h1, _⟩ | ⟨h1, _⟩) | ⟨h1, _⟩) | h1) | h1)
  · have h2 := hval 65 h1
    have h3 : (65 : UInt32).toNat = 65 := rfl
    omega
  · have h2 := hval 97 h1
    have h3 : (97 : UInt32).toNat = 97 := rfl
    omega
  · have h2 := hval 48 h1
    have h3 : (48 : UInt32).toNat = 48 := rfl
    omega
  · subst h1
    decide
  · subst h1
    decide

lemma sanitizeUrl_eq_self {l : PyStr} (h : ∀ c ∈ l, 0x20 < c.toNat) :
    sanitizeUrl l = l := by
  unfold sanitizeUrl
  have hdrop : l.dropWhile (fun c => decide (c.toNat ≤ 0x20)) = l := by
    cases l with
    | nil => rfl
    | cons c rest =>
      rw [List.dropWhile_cons, if_neg]
      simp only [decide_eq_true_eq, Nat.not_le]
      exact h c (List.mem_cons_self c rest)
  rw [hdrop]
  apply List.filter_eq_self.mpr
  intro a ha
  have h2 := h a ha
  simp only [Bool.not_eq_eq_eq_not, Bool.not_true, Bool.or_eq_false_iff,
    beq_eq_false_iff_ne, ne_eq]
  refine ⟨⟨fun he => ?_, fun he => ?_⟩, fun he => ?_⟩ <;>
    · subst he
      exact absurd h2 (by decide)

lemma schemeSplit_watch (tail : PyStr) :
    schemeSplit ("https://www.youtube.com/watch?v=".toList ++ tail) =
      ("https".toList, "//www.youtube.com/watch?v=".toList ++ tail) := by
  have h5 : findCharIdx ':' ("https://www.youtube.com/watch?v=".toList ++ tail) = some 5 :=
    findCharIdx_append_of_found (by decide) tail
  have htake : ("https://www.youtube.com/watch?v=".toList ++ tail).take 5 = "https".toList := by
    rw [List.take_append_of_le_length (by decide)]
    decide
  have hdrop : ("https://www.youtube.com/watch?v=".toList ++ tail).drop 6 =
      "//www.youtube.com/watch?v=".toList ++ tail := by
    rw [List.drop_append_of_le_length (by decide),
      show ("https://www.youtube.com/watch?v=".toList).drop 6 =
        "//www.youtube.com/watch?v=".toList from by decide]
  have hhead : (("https://www.youtube.com/watch?v=".toList) ++ tail).headD ' ' = 'h' := by
    rw [show ("https://www.youtube.com/watch?v=".toList) =
      'h' :: ("ttps://www.youtube.com/watch?v=".toList) from by decide, List.cons_append]
    rfl
  unfold schemeSplit
  rw [h5]
  dsimp only
  rw [if_pos ⟨by decide, by rw [hhead]; decide, by rw [htake]; decide⟩, htake, hdrop]
  rw [show pyLower ("https".toList) = "https".toList from by decide]

lemma netlocSplit_watch (tail : PyStr) :
    netlocSplit ("//www.youtube.com/watch?v=".toList ++ tail) =
      ("www.youtube.com".toList, "/watch?v=".toList ++ tail) := by
  have htake2 : ("//www.youtube.com/watch?v=".toList ++ tail).take 2 = ['/', '/'] := by
    rw [List.take_append_of_le_length (by decide)]
    decide
  have hdrop2 : ("//www.youtube.com/watch?v=".toList ++ tail).drop 2 =
      "www.youtube.com".toList ++ ('/' :: ("watch?v=".toList ++ tail)) := by
    rw [List.drop_append_of_le_length (by decide),
      show ("//www.youtube.com/watch?v=".toList).drop 2 =
        "www.youtube.com".toList ++ ('/' :: "watch?v=".toList) from by decide]
    simp [List.append_assoc]
  unfold netlocSplit
  rw [if_pos htake2, hdrop2]
  rw [List.takeWhile_append_of_pos (by decide), List.dropWhile_append_of_pos (by decide)]
  rw [show (('/' : Char) :: ("watch?v=".toList ++ tail)).takeWhile (fun c => !netlocEnd c) =
      [] from by simp [List.takeWhile_cons, netlocEnd]]
  rw [show (('/' : Char) :: ("watch?v=".toList ++ tail)).dropWhile (fun c => !netlocEnd c) =
      '/' :: ("watch?v=".toList ++ tail) from by simp [List.dropWhile_cons, netlocEnd]]
  simp [show ("/watch?v=".toList) = '/' :: ("watch?v=".toList) from by decide]

lemma urlsplit_watch {v : PyStr} (hsafe : ∀ c ∈ v, safeIdChar c = true) :
    urlsplit ("https://www.youtube.com/watch?v=".toList ++ v ++ "&other=1".toList) =
      .ok ⟨"https".toList, "www.youtube.com".toList, "/watch".toList,
        "v=".toList ++ v ++ "&other=1".toList, []⟩ := by
  have hfrag : pySplitOnce '#' ("/watch?v=".toList ++ (v ++ "&other=1".toList)) =
      ("/watch?v=".toList ++ (v ++ "&other=1".toList), none) := by
    apply pySplitOnce_of_not_mem
    intro hm
    rcases List.mem_append.mp hm with h1 | h1
    · exact absurd h1 (by decide)
    rcases List.mem_append.mp h1 with h2 | h2
    · exact (not_mem_of_safe hsafe (by decide)) h2
    · exact absurd h2 (by decide)
  have hquery : pySplitOnce '?' ("/watch?v=".toList ++ (v ++ "&other=1".toList)) =
      ("/watch".toList, some ("v=".toList ++ (v ++ "&other=1".toList))) := by
    rw [show "/watch?v=".toList = "/watch".toList ++ '?' :: ("v=".toList) from by decide,
      List.append_assoc, List.cons_append]
    exact pySplitOnce_append (by decide) _
  have hbig : ∀ c ∈ ("https://www.youtube.com/watch?v=".toList ++
      (v ++ "&other=1".toList)), 0x20 < c.toNat := by
    intro c hc
    rcases List.mem_append.mp hc with h1 | h1
    · exact (by decide : ∀ c ∈ ("https://www.youtube.com/watch?v=".toList),
        0x20 < c.toNat) c h1
    rcases List.mem_append.mp h1 with h2 | h2
    · exact safe_gt_space (hsafe c h2)
    · exact (by decide : ∀ c ∈ ("&other=1".toList), 0x20 < c.toNat) c h2
  rw [List.append_assoc]
  simp only [urlsplit]
  rw [sanitizeUrl_eq_self hbig]
  simp only [schemeSplit_watch, netlocSplit_watch]
  rw [if_neg (by decide)]
  rw [hfrag]
  dsimp only
  rw [hquery]
  dsimp only
  simp [List.append_assoc]

lemma qsl_field_v {v : PyStr} (hsafe : ∀ c ∈ v, safeIdChar c = true) (hne : v ≠ []) :
    qsl_field ('v' :: '=' :: v) = some (['v'], v) := by
  unfold qsl_field
  rw [if_neg (by simp)]
  rw [show ('v' :: '=' :: v : PyStr) = ['v'] ++ '=' :: v from rfl]
  rw [pySplitOnce_append (by decide) v]
  dsimp only
  rw [if_neg hne]
  rw [unquote_plus_of_safe (not_mem_of_safe hsafe (by decide)) (not_mem_of_safe hsafe (by decide))]
  rw [show unquote_plus ['v'] = ['v'] from by decide]

lemma parse_qs_get_v {v : PyStr} (hsafe : ∀ c ∈ v, safeIdChar c = true) (hne : v ≠ []) :
    parse_qs_get ("v".toList) ("v=".toList ++ v ++ "&other=1".toList) = some v := by
  have hd : "v=".toList ++ v ++ "&other=1".toList =
      ('v' :: '=' :: v) ++ '&' :: ("other=1".toList) := by
    rw [show "v=".toList = ['v', '='] from by decide,
      show "&other=1".toList = '&' :: ("other=1".toList) from by decide]
    simp
  have hamp : ('&' : Char) ∉ ('v' :: '=' :: v) := by
    intro hm
    rcases List.mem_cons.mp hm with h1 | h1
    · exact absurd h1 (by decide)
    rcases List.mem_cons.mp h1 with h2 | h2
    · exact absurd h2 (by decide)
    · exact (not_mem_of_safe hsafe (by decide)) h2
  rw [hd]
  unfold parse_qs_get parse_qsl
  rw [pySplitChar_append hamp]
  rw [List.filterMap_cons, qsl_field_v hsafe hne]
  dsimp only
  rw [List.find?_cons_of_pos _ (by rfl)]
  rfl

lemma get_youtube_id_watch {v : PyStr} (hsafe : ∀ c ∈ v, safeIdChar c = true) (hne : v ≠ []) :
    get_youtube_id ("https://www.youtube.com/watch?v=".toList ++ v ++ "&other=1".toList) =
      .ok (some v) := by
  have h1 : ¬ (pyContains ("youtu.be".toList)
      ("https://www.youtube.com/watch?v=".toList ++ v ++ "&other=1".toList) = true) := by
    rw [noYoutuBe hsafe]
    simp
  have h2 : pyContains ("youtube.com".toList)
      ("https://www.youtube.com/watch?v=".toList ++ v ++ "&other=1".toList) = true := by
    rw [List.append_assoc]
    exact pyContains_extend_right (by decide) _
  unfold get_youtube_id
  rw [if_neg h1, if_pos h2, urlsplit_watch hsafe]
  dsimp only [Except.map]
  rw [parse_qs_get_v hsafe hne]

lemma get_youtube_id_short {v : PyStr} (hsafe : ∀ c ∈ v, safeIdChar c = true) :
    get_youtube_id ("https://youtu.be/".toList ++ v) = .ok (some v) := by
  have hc : pyContains ("youtu.be".toList) ("https://youtu.be/".toList ++ v) = true :=
    pyContains_extend_right (by decide) v
  unfold get_youtube_id
  rw [if_pos hc, pyLast_split_eq_afterLastSlash]
  rw [show ("https://youtu.be/".toList) ++ v = "https://youtu.be".toList ++ '/' :: v from by
    rw [show ("https://youtu.be/".toList) = "https://youtu.be".toList ++ ['/'] from by decide]
    simp]
  rw [afterLastSlash_append_cons, afterLastSlash_no_slash (not_mem_of_safe hsafe (by decide))]

lemma video_trace_downloading (T : ℚ) : ∀ (bs : List ℚ) (p : ℚ),
    List.scanl (fun q d => progress_hook d q) p
      (bs.map fun b => HookDict.mk ("downloading".toList) b (some T)) =
      p :: bs.map (fun b => b / T) := by
  intro bs
  induction bs with
  | nil => intro p; rfl
  | cons b rest ih =>
    intro p
    rw [List.map_cons, List.scanl_cons, ih]
    simp [progress_hook]

lemma head?_scanl {α β : Type _} (f : β → α → β) (b : β) (l : List α) :
    (List.scanl f b l).head? = some b := by
  cases l <;> simp [List.scanl_nil, List.scanl_cons]

lemma scanl_len_chain : ∀ (chunks : List (List Nat)) (d : Nat),
    (chunks.scanl (fun a c => a + c.length) d).Chain' (· ≤ ·) := by
  intro chunks
  induction chunks with
  | nil => intro d; simp
  | cons data rest ih =>
    intro d
    rw [List.scanl_cons]
    rw [List.singleton_append, List.chain'_cons']
    refine ⟨?_, ih (d + data.length)⟩
    intro y hy
    rw [head?_scanl] at hy
    cases hy
    exact Nat.le_add_right d data.length

lemma scanl_eq_cons_tail {α β : Type _} (f : β → α → β) (b : β) (l : List α) :
    List.scanl f b l = b :: (List.scanl f b l).tail := by
  cases l <;> simp [List.scanl_nil, List.scanl_cons]

lemma image_foldl (T : Nat) : ∀ (chunks : List (List Nat)) (d : Nat)
    (ws : List (List Nat)) (ps : List ℚ),
    chunks.foldl (image_step T) (d, ws, ps) =
      (d + (chunks.map List.length).sum, ws ++ chunks,
       ps ++ (chunks.scanl (fun a c => a + c.length) d).tail.map
         (fun s : Nat => (s : ℚ) / (T : ℚ))) := by
  intro chunks
  induction chunks with
  | nil => intro d ws ps; simp
  | cons data rest ih =>
    intro d ws ps
    rw [List.foldl_cons, image_step, ih]
    rw [List.scanl_cons]
    simp only [List.map_cons, List.sum_cons, List.singleton_append, List.tail_cons,
      Prod.mk.injEq, List.append_assoc, List.cons_append, List.nil_append]
    refine ⟨by omega, trivial, ?_⟩
    congr 1
    conv_rhs => rw [scanl_eq_cons_tail]
    rw [List.map_cons]

lemma chunksGo_join : ∀ (fuel : Nat) (c : List Nat), c.length ≤ fuel →
    (chunksGo fuel c).flatten = c
  | 0, c, h => by
    have : c = [] := List.length_eq_zero.mp (Nat.le_zero.mp h)
    subst this
    rfl
  | _ + 1, [], _ => rfl
  | fuel + 1, x :: xs, h => by
    have h1 : chunksGo (fuel + 1) (x :: xs) =
        (x :: xs).take 1024 :: chunksGo fuel ((x :: xs).drop 1024) := rfl
    rw [h1, List.flatten_cons,
      chunksGo_join fuel _ (by simp only [List.length_drop]; omega)]
    exact List.take_append_drop 1024 (x :: xs)

lemma chunksGo_sizes : ∀ (fuel : Nat) (c : List Nat),
    ∀ w ∈ chunksGo fuel c, w.length ≤ 1024
  | 0, _, w, hw => by cases hw
  | _ + 1, [], w, hw => by cases hw
  | fuel + 1, x :: xs, w, hw => by
    have h1 : chunksGo (fuel + 1) (x :: xs) =
        (x :: xs).take 1024 :: chunksGo fuel ((x :: xs).drop 1024) := rfl
    rw [h1] at hw
    rcases List.mem_cons.mp hw with h2 | h2
    · subst h2
      simp [List.length_take]
    · exact chunksGo_sizes fuel _ w h2

/-- C10: any input containing the substring `youtu.be` anywhere takes the
short-link branch of `get_youtube_id`, which returns the portion of the
string after its final `/` — possibly empty, but never `None` and never an
error. -/
theorem c10_short_link_branch (url : PyStr)
    (h : pyContains ("youtu.be".toList) url = true) :
    get_youtube_id url = .ok (some (afterLastSlash url)) := by
  unfold get_youtube_id
  rw [if_pos h, pyLast_split_eq_afterLastSlash]

/-- Witness for C10 at a URL where `youtu.be` occurs in the path, not the
host. -/
theorem c10_short_link_branch_witness :
    pyContains ("youtu.be".toList) ("https://example.com/a/youtu.be".toList) = true ∧
    get_youtube_id ("https://example.com/a/youtu.be".toList) =
      .ok (some ("youtu.be".toList)) :=
  ⟨by decide, (c10_short_link_branch _ (by decide)).trans (by decide)⟩

/-- C1 (amended): the progress hook updates state only for `downloading`
callbacks; with a known total it sets `downloaded_bytes / total_bytes`, but
with an unknown total it sets the progress to `0` instead of leaving it at
its prior value. -/
theorem c1_progress_hook_amended (d : HookDict) (p : ℚ) :
    (d.status ≠ "downloading".toList → progress_hook d p = p) ∧
    (d.status = "downloading".toList → ∀ t, d.total_bytes = some t →
      progress_hook d p = d.downloaded_bytes / t) ∧
    (d.status = "downloading".toList → d.total_bytes = none →
      progress_hook d p = 0) := by
  refine ⟨fun h => ?_, fun h t ht => ?_, fun h ht => ?_⟩
  · unfold progress_hook
    rw [if_neg h]
  · unfold progress_hook
    rw [if_pos h, ht]
  · unfold progress_hook
    rw [if_pos h, ht]

/-- C1 counterexample: a `downloading` callback without `total_bytes` resets
the progress to `0`, so a prior value of `1/2` is not preserved as the claim
states. -/
theorem c1_counterexample :
    progress_hook (HookDict.mk ("downloading".toList) 5 none) (1/2) = 0 ∧
    (0 : ℚ) ≠ 1/2 := by
  constructor
  · rfl
  · norm_num

/-- Witness for C1 at the three kinds of callbacks. -/
theorem c1_progress_hook_amended_witness :
    progress_hook (HookDict.mk ("finished".toList) 5 (some 10)) (1/3) = 1/3 ∧
    progress_hook (HookDict.mk ("downloading".toList) 5 (some 10)) (1/3) = 5 / 10 ∧
    progress_hook (HookDict.mk ("downloading".toList) 5 none) (1/3) = 0 :=
  ⟨(c1_progress_hook_amended (HookDict.mk ("finished".toList) 5 (some 10)) (1/3)).1
      (by decide),
   (c1_progress_hook_amended (HookDict.mk ("downloading".toList) 5 (some 10)) (1/3)).2.1
      rfl 10 rfl,
   (c1_progress_hook_amended (HookDict.mk ("downloading".toList) 5 none) (1/3)).2.2
      rfl rfl⟩

/-- C7: on any backend failure `get_video_info` shows exactly one error
message and returns `None`; on success it returns the metadata with no error;
metadata is absent exactly when the backend failed. -/
theorem c7_fetch_error_handling :
    (∀ e : PyStr, get_video_info (.error e) =
      (none, [("Error fetching video info: ".toList) ++ e])) ∧
    (∀ info : InfoDict,
      get_video_info (.ok info) = (some (build_video_meta info), [])) ∧
    (∀ backend : Except PyStr InfoDict,
      ((get_video_info backend).1 = none ↔ ∃ e, backend = .error e)) := by
  refine ⟨fun e => rfl, fun info => rfl, fun backend => ?_⟩
  cases backend with
  | error e => simp [get_video_info]
  | ok info => simp [get_video_info]

/-- C9: each default in `get_video_info` is substituted only when the key is
absent from the backend dictionary; a key present with value `None` passes
`None` through instead of the default. -/
theorem c9_defaults_only_when_absent (info : InfoDict) :
    (info.title = some none → (build_video_meta info).title = none) ∧
    (info.title = none →
      (build_video_meta info).title = some ("Unknown Title".toList)) ∧
    (info.description = some none → (build_video_meta info).description = none) ∧
    (info.description = none →
      (build_video_meta info).description = some ("No description available".toList)) ∧
    (info.uploader = some none → (build_video_meta info).uploader = none) ∧
    (info.uploader = none →
      (build_video_meta info).uploader = some ("Unknown uploader".toList)) ∧
    (info.view_count = some none → (build_video_meta info).view_count = none) ∧
    (info.view_count = none → (build_video_meta info).view_count = some 0) := by
  refine ⟨fun h => ?_, fun h => ?_, fun h => ?_, fun h => ?_, fun h => ?_,
    fun h => ?_, fun h => ?_, fun h => ?_⟩ <;> simp [build_video_meta, h]

/-- Witness for C9 at a dictionary whose keys are present with null values and
one whose keys are absent. -/
theorem c9_defaults_only_when_absent_witness :
    (build_video_meta
      (InfoDict.mk (some none) none none (some none) (some none) (some none))).title =
      none ∧
    (build_video_meta (InfoDict.mk none none none none none none)).title =
      some ("Unknown Title".toList) ∧
    (build_video_meta
      (InfoDict.mk (some none) none none (some none) (some none) (some none))).view_count =
      none ∧
    (build_video_meta (InfoDict.mk none none none none none none)).view_count = some 0 :=
  ⟨(c9_defaults_only_when_absent _).1 rfl,
   (c9_defaults_only_when_absent _).2.1 rfl,
   (c9_defaults_only_when_absent _).2.2.2.2.2.2.1 rfl,
   (c9_defaults_only_when_absent _).2.2.2.2.2.2.2 rfl⟩

/-- C8: `format_views` maps null or zero to `No views`, a count below 1000 to
its literal digits, and otherwise divides by the exact power-of-ten boundary
and formats one fixed decimal with the `K`/`M`/`B` suffix; with the spec's
sample values. -/
theorem c8_format_views :
    format_views none = "No views".toList ∧
    format_views (some 0) = "No views".toList ∧
    (∀ n : Nat, n ≠ 0 → n < 1000 → format_views (some n) = natStr n) ∧
    (∀ n : Nat, 1000 ≤ n → n < 1000000 →
      format_views (some n) = fmtOneDecimal ((n : ℚ) / 1000) ++ ['K']) ∧
    (∀ n : Nat, 1000000 ≤ n → n < 1000000000 →
      format_views (some n) = fmtOneDecimal ((n : ℚ) / 1000000) ++ ['M']) ∧
    (∀ n : Nat, 1000000000 ≤ n →
      format_views (some n) = fmtOneDecimal ((n : ℚ) / 1000000000) ++ ['B']) ∧
    format_views (some 999) = "999".toList ∧
    format_views (some 1500) = "1.5K".toList ∧
    format_views (some 2300000) = "2.3M".toList ∧
    format_views (some 4000000000) = "4.0B".toList := by
  refine ⟨rfl, rfl, ?_, ?_, ?_, ?_, by decide, ?_, ?_, ?_⟩
  · intro n h1 h2
    simp [format_views, h1, h2]
  · intro n h1 h2
    have h0 : n ≠ 0 := by omega
    have h3 : ¬ n < 1000 := by omega
    simp [format_views, h0, h3, h2]
  · intro n h1 h2
    have h0 : n ≠ 0 := by omega
    have h3 : ¬ n < 1000 := by omega
    have h4 : ¬ n < 1000000 := by omega
    simp [format_views, h0, h3, h4, h2]
  · intro n h1
    have h0 : n ≠ 0 := by omega
    have h3 : ¬ n < 1000 := by omega
    have h4 : ¬ n < 1000000 := by omega
    have h5 : ¬ n < 1000000000 := by omega
    simp [format_views, h0, h3, h4, h5]
  · have h : ((1500 : ℚ)) / 1000 * 10 = 15 := by norm_num
    simp [format_views, fmtOneDecimal, roundHalfEven, h]
    decide
  · have h : ((2300000 : ℚ)) / 1000000 * 10 = 23 := by norm_num
    simp [format_views, fmtOneDecimal, roundHalfEven, h]
    decide
  · have h : ((4000000000 : ℚ)) / 1000000000 * 10 = 40 := by norm_num
    simp [format_views, fmtOneDecimal, roundHalfEven, h]
    decide

/-- Witness for C8's parameterized branches. -/
theorem c8_format_views_witness :
    format_views (some 500) = natStr 500 ∧
    format_views (some 5000) = fmtOneDecimal (((5000 : Nat) : ℚ) / 1000) ++ ['K'] ∧
    format_views (some 5000000) =
      fmtOneDecimal (((5000000 : Nat) : ℚ) / 1000000) ++ ['M'] ∧
    format_views (some 5000000000) =
      fmtOneDecimal (((5000000000 : Nat) : ℚ) / 1000000000) ++ ['B'] :=
  ⟨c8_format_views.2.2.1 500 (by decide) (by decide),
   c8_format_views.2.2.2.1 5000 (by decide) (by decide),
   c8_format_views.2.2.2.2.1 5000000 (by decide) (by decide),
   c8_format_views.2.2.2.2.2.1 5000000000 (by decide)⟩

lemma zero_cons_tail_map (chunks : List (List Nat)) (T : Nat) :
    (0 : ℚ) :: (chunks.scanl (fun a c => a + c.length) 0).tail.map
      (fun s : Nat => (s : ℚ) / (T : ℚ)) =
    (chunks.scanl (fun a c => a + c.length) 0).map
      (fun s : Nat => (s : ℚ) / (T : ℚ)) := by
  conv_rhs => rw [scanl_eq_cons_tail]
  rw [List.map_cons]
  norm_num

/-- C2 counterexample: two `downloading` callbacks reporting byte counts in
`[0, total_bytes]` whose observed progress regresses from `500/1000` to
`300/1000`, refuting the claimed monotonicity (and the trace does not end at
`1`). -/
theorem c2_counterexample :
    (∀ d ∈ [HookDict.mk ("downloading".toList) 500 (some 1000),
        HookDict.mk ("downloading".toList) 300 (some 1000)],
      d.status = "downloading".toList ∧ 0 ≤ d.downloaded_bytes ∧
      d.total_bytes = some 1000 ∧ d.downloaded_bytes ≤ 1000) ∧
    ¬ (video_progress_trace
        [HookDict.mk ("downloading".toList) 500 (some 1000),
         HookDict.mk ("downloading".toList) 300 (some 1000)]).Chain' (· ≤ ·) := by
  constructor
  · intro d hd
    rcases List.mem_cons.mp hd with h | h
    · subst h
      exact ⟨rfl, by norm_num, rfl, by norm_num⟩
    rcases List.mem_cons.mp h with h2 | h2
    · subst h2
      exact ⟨rfl, by norm_num, rfl, by norm_num⟩
    · cases h2
  · intro hch
    have h1 : video_progress_trace
        [HookDict.mk ("downloading".toList) 500 (some 1000),
         HookDict.mk ("downloading".toList) 300 (some 1000)] =
        [0, (500 : ℚ) / 1000, (300 : ℚ) / 1000] := by
      unfold video_progress_trace
      rw [show ([HookDict.mk ("downloading".toList) 500 (some 1000),
          HookDict.mk ("downloading".toList) 300 (some 1000)]) =
          ([(500 : ℚ), 300].map fun b =>
            HookDict.mk ("downloading".toList) b (some 1000)) from rfl]
      rw [video_trace_downloading]
      rfl
    rw [h1] at hch
    rw [List.chain'_cons, List.chain'_cons] at hch
    have h2 := hch.2.1
    norm_num at h2

/-- C2 (amended): the code mirrors the backend, so monotonicity holds under
the backend contract: for `downloading` callbacks with one known positive
total and non-decreasing byte counts in `[0, total]`, the observed trace is
non-decreasing and ends at exactly `1` when the final callback reports
`downloaded_bytes = total`; the image loop's progress values are likewise
non-decreasing. -/
theorem c2_monotone_progress_amended :
    (∀ (T : ℚ) (bs : List ℚ), 0 < T → (∀ b ∈ bs, 0 ≤ b ∧ b ≤ T) →
      bs.Chain' (· ≤ ·) →
      ((video_progress_trace (bs.map fun b =>
          HookDict.mk ("downloading".toList) b (some T))).Chain' (· ≤ ·) ∧
        (bs.getLast? = some T →
          (video_progress_trace (bs.map fun b =>
            HookDict.mk ("downloading".toList) b (some T))).getLast? = some 1))) ∧
    (∀ (total : Nat) (content : List Nat), 0 < total →
      ((0 : ℚ) :: (download_image_writes total content).2).Chain' (· ≤ ·)) := by
  constructor
  · intro T bs hT hbs hchain
    unfold video_progress_trace
    rw [video_trace_downloading]
    refine ⟨?_, ?_⟩
    · rw [List.chain'_cons']
      constructor
      · intro y hy
        cases bs with
        | nil => cases hy
        | cons b rest =>
          rw [List.map_cons] at hy
          simp only [List.head?_cons, Option.mem_def, Option.some.injEq] at hy
          subst hy
          exact div_nonneg (hbs b (List.mem_cons_self b rest)).1 (le_of_lt hT)
      · rw [List.chain'_map]
        exact hchain.imp fun a b hab => (div_le_div_iff_of_pos_right hT).mpr hab
    · intro hlast
      have hbs' : bs ≠ [] := fun h => by rw [h] at hlast; cases hlast
      obtain ⟨b0, rest, rfl⟩ := List.exists_cons_of_ne_nil hbs'
      rw [List.map_cons, List.getLast?_cons_cons]
      show (List.map (fun b => b / T) (b0 :: rest)).getLast? = some 1
      rw [List.getLast?_map, hlast]
      simp [div_self (ne_of_gt hT)]
  · intro total content htot
    unfold download_image_writes
    rw [if_neg (Nat.pos_iff_ne_zero.mp htot), image_foldl]
    dsimp only
    rw [List.nil_append, zero_cons_tail_map]
    rw [List.chain'_map]
    refine (scanl_len_chain (iter_content content) 0).imp fun a b hab => ?_
    have hT : (0 : ℚ) < (total : ℚ) := by exact_mod_cast htot
    exact (div_le_div_iff_of_pos_right hT).mpr (by exact_mod_cast hab)

/-- Witness for C2 with a concrete monotone callback sequence and image body. -/
theorem c2_monotone_progress_amended_witness :
    ((video_progress_trace ([(400 : ℚ), 1000].map fun b =>
        HookDict.mk ("downloading".toList) b (some 1000))).Chain' (· ≤ ·) ∧
      (([(400 : ℚ), 1000]).getLast? = some 1000 →
        (video_progress_trace ([(400 : ℚ), 1000].map fun b =>
          HookDict.mk ("downloading".toList) b (some 1000))).getLast? = some 1)) ∧
    ((0 : ℚ) :: (download_image_writes 3 [7, 7, 7]).2).Chain' (· ≤ ·) :=
  ⟨c2_monotone_progress_amended.1 1000 [(400 : ℚ), 1000] (by norm_num)
      (by intro b hb; rcases List.mem_cons.mp hb with h | h
          · subst h; norm_num
          rcases List.mem_cons.mp h with h2 | h2
          · subst h2; norm_num
          · cases h2)
      (by rw [List.chain'_cons]; exact ⟨by norm_num, List.chain'_singleton _⟩),
   c2_monotone_progress_amended.2 3 [7, 7, 7] (by norm_num)⟩

/-- C6 counterexample: with `Content-Length` absent (total `0`) the code
performs no progress update at all — the update list is empty and `1` never
appears — so progress does not jump from `0` to `1` as the claim states; it
is left at its prior value. -/
theorem c6_counterexample :
    (download_image_writes 0 [7, 7, 7]).2 = [] ∧
    (1 : ℚ) ∉ (download_image_writes 0 [7, 7, 7]).2 := by
  refine ⟨rfl, ?_⟩
  rw [show (download_image_writes 0 [7, 7, 7]).2 = [] from rfl]
  simp

/-- C6 (amended): with a nonzero `Content-Length` the body is written in
1024-byte chunks (the writes are exactly the chunking, each at most 1024
bytes, and concatenate back to the body) and progress equals
bytes-written / content-length after each chunk; with `Content-Length`
absent or zero the whole body is written in one operation and no progress
update is made at all — progress is left at its prior value (the jump to `1`
the spec mentions is performed by the caller's UI bar, not here). -/
theorem c6_image_write_loop_amended (header : Option Nat) (content : List Nat) :
    (content_length header ≠ 0 →
      (download_image_writes (content_length header) content).1 = iter_content content ∧
      (∀ w ∈ (download_image_writes (content_length header) content).1,
        w.length ≤ 1024) ∧
      ((download_image_writes (content_length header) content).1).flatten = content ∧
      (download_image_writes (content_length header) content).2 =
        (prefixTotals (iter_content content)).map
          (fun s : Nat => (s : ℚ) / ((content_length header) : ℚ))) ∧
    (content_length header = 0 →
      (download_image_writes (content_length header) content).1 = [content] ∧
      (download_image_writes (content_length header) content).2 = []) := by
  constructor
  · intro h
    have hw : download_image_writes (content_length header) content =
        (iter_content content,
         (prefixTotals (iter_content content)).map
           (fun s : Nat => (s : ℚ) / ((content_length header) : ℚ))) := by
      unfold download_image_writes
      rw [if_neg h, image_foldl]
      dsimp only
      rw [List.nil_append, List.nil_append]
      rfl
    rw [hw]
    refine ⟨rfl, ?_, ?_, rfl⟩
    · intro w hw2
      exact chunksGo_sizes content.length content w hw2
    · exact chunksGo_join content.length content (le_refl _)
  · intro h
    unfold download_image_writes
    rw [if_pos h]
    exact ⟨rfl, rfl⟩

/-- Witness for C6 with a present and an absent `Content-Length`. -/
theorem c6_image_write_loop_amended_witness :
    (download_image_writes (content_length (some 3)) [1, 2, 3]).1 =
      iter_content [1, 2, 3] ∧
    (download_image_writes (content_length none) [9]).1 = [[9]] ∧
    (download_image_writes (content_length none) [9]).2 = [] :=
  ⟨((c6_image_write_loop_amended (some 3) [1, 2, 3]).1 (by decide)).1,
   ((c6_image_write_loop_amended none [9]).2 rfl).1,
   ((c6_image_write_loop_amended none [9]).2 rfl).2⟩

lemma urlsplit_isOk_of_no_brackets {url : PyStr} (h1 : '[' ∉ rawNetloc url)
    (h2 : ']' ∉ rawNetloc url) : ∃ r, urlsplit url = .ok r := by
  have hcond : ¬ (('[' ∈ rawNetloc url ∧ ']' ∉ rawNetloc url) ∨
      (']' ∈ rawNetloc url ∧ '[' ∉ rawNetloc url)) := by
    rintro (⟨hm, _⟩ | ⟨hm, _⟩)
    · exact h1 hm
    · exact h2 hm
  unfold rawNetloc at hcond
  simp only [urlsplit]
  rw [if_neg hcond]
  exact ⟨_, rfl⟩

lemma exceptBind_ok {ε α β : Type _} (a : α) (f : α → Except ε β) :
    (Except.ok a : Except ε α) >>= f = f a := rfl

lemma exceptPure {ε α : Type _} (a : α) : (pure a : Except ε α) = Except.ok a := rfl

lemma classify_ok_of_no_brackets {url : PyStr} (h1 : '[' ∉ rawNetloc url)
    (h2 : ']' ∉ rawNetloc url) : ∃ k, classify url = .ok k := by
  obtain ⟨r, hr⟩ := urlsplit_isOk_of_no_brackets h1 h2
  by_cases hv : (video_domains.any fun d => pyContains d r.netloc) = true
  · exact ⟨.video, by simp [classify, is_video_url, is_image_url, hr, hv, Except.map, exceptBind_ok, exceptPure]⟩
  · by_cases hi : (image_extensions.any fun ext =>
        ext.isSuffixOf (pyLower (splitparamsPath r.path))) = true
    · exact ⟨.image, by simp [classify, is_video_url, is_image_url, hr, hv, hi, Except.map, exceptBind_ok, exceptPure]⟩
    · exact ⟨.unsupported, by simp [classify, is_video_url, is_image_url, hr, hv, hi, Except.map, exceptBind_ok, exceptPure]⟩

/-- C3 counterexample: on the input `http://[` the modeled `urlparse` raises
`ValueError` (`Invalid IPv6 URL`), so `is_video_url` — and hence
classification — raises instead of mapping the string to a kind. -/
theorem c3_counterexample :
    is_video_url ("http://[".toList) = .error ("Invalid IPv6 URL".toList) ∧
    classify ("http://[".toList) = .error ("Invalid IPv6 URL".toList) := by
  constructor <;> decide

/-- C3 (amended): for every ASCII input string whose authority component —
as parsed after CPython's URL sanitization (leading control/space strip,
tab/CR/LF removal) — has no square bracket, classification is total and
never raises: it maps the URL to exactly one of video, image or unsupported.
(Inputs whose sanitized authority has an unbalanced bracket raise
`ValueError` instead.) -/
theorem c3_classification_total_amended (url : PyStr)
    (hascii : ∀ c ∈ url, c.toNat < 128)
    (h1 : '[' ∉ rawNetloc url) (h2 : ']' ∉ rawNetloc url) :
    ∃! k : MediaKind, classify url = .ok k := by
  obtain ⟨k, hk⟩ := classify_ok_of_no_brackets h1 h2
  refine ⟨k, hk, fun y hy => ?_⟩
  rw [hk] at hy
  injection hy with h
  exact h.symm

/-- Witness for C3 at a plain video URL. -/
theorem c3_classification_total_amended_witness :
    ∃! k : MediaKind, classify ("https://youtu.be/x".toList) = .ok k :=
  c3_classification_total_amended ("https://youtu.be/x".toList) (by decide)
    (by decide) (by decide)

/-- C5 counterexample: the claim quantifies over every id string, but for an
id containing `/` the short-link branch returns only the text after the last
slash — `https://youtu.be/a/b` yields `b`, not `a/b`. -/
theorem c5_counterexample :
    get_youtube_id ("https://youtu.be/a/b".toList) = .ok (some ("b".toList)) ∧
    "b".toList ≠ "a/b".toList := by
  constructor <;> decide

/-- C5 (amended): for identifiers over the id alphabet `[A-Za-z0-9_-]`, the
short link `https://youtu.be/{id}` yields exactly the id; the canonical URL
`https://www.youtube.com/watch?v={id}&other=1` yields exactly the (nonempty)
id; and with the `v` parameter absent the result is `None`. -/
theorem c5_extract_video_id_amended :
    (∀ v : PyStr, (∀ c ∈ v, safeIdChar c = true) →
      get_youtube_id ("https://youtu.be/".toList ++ v) = .ok (some v)) ∧
    (∀ v : PyStr, (∀ c ∈ v, safeIdChar c = true) → v ≠ [] →
      get_youtube_id
        ("https://www.youtube.com/watch?v=".toList ++ v ++ "&other=1".toList) =
        .ok (some v)) ∧
    get_youtube_id ("https://www.youtube.com/watch?other=1".toList) = .ok none :=
  ⟨fun _ h => get_youtube_id_short h,
   fun _ h hne => get_youtube_id_watch h hne,
   by decide⟩

/-- Witness for C5 at concrete identifiers. -/
theorem c5_extract_video_id_amended_witness :
    get_youtube_id ("https://youtu.be/".toList ++ "dQw4w9WgXcQ".toList) =
      .ok (some ("dQw4w9WgXcQ".toList)) ∧
    get_youtube_id ("https://www.youtube.com/watch?v=".toList ++
      "abc123".toList ++ "&other=1".toList) = .ok (some ("abc123".toList)) :=
  ⟨c5_extract_video_id_amended.1 _ (by decide),
   c5_extract_video_id_amended.2.1 _ (by decide) (by decide)⟩
